import Mathlib

/-!
Shallow embedding of the top-of-block (TOB) auction lane of the `pob`
repository (file `blockbuster/tob_lane.go`), together with proofs about its
selection, removal and indexing behaviour.

Modelling conventions:

* `Tx` is the opaque transaction type (`sdk.Tx`); `Ctx` is the execution
  context (`sdk.Context`).  Both are type parameters.
* Transaction bytes are `List Nat`; byte sizes are list lengths cast to `Int`
  (Go `int64`).
* Go functions returning `(T, error)` become `Option T` (`none` = error) when
  the error value itself is never inspected, and `Except` when distinct error
  outcomes matter.
* `GetAuctionBidInfo` returns a Go pair `(bidInfo *BidInfo, err error)`; both
  components can be set independently, so it is modelled as
  `Tx → Option BidInfo × Bool` where the `Bool` is `true` iff the error was
  non-nil.
* The ante handler may mutate state through the forked cache store even though
  `prepareProposalVerifyTx` discards the returned `sdk.Context` value; `Ctx`
  here models the observable state carried by the context, so a successful
  validation threads the updated `Ctx` (this is what the shared cache
  `MultiStore` does by reference in Go).  `ctx.CacheContext()` forks a
  copy-on-write view: in the pure model the fork is the current value of the
  parent context, and `write()` is modelled by returning the fork's final
  value as the new parent context.
* `sha256`/hex hashing of the encoded bytes (`getTxHashStr`) is modelled by an
  abstract function `hashBytes : List Nat → String` composed with the encoder.
* The priority mempool wrapped by the lane lives in package `mempool` of the
  repository, which is not part of the sources here; its operations
  (`Insert`, `Remove`, `Select`, `CountTx`) are modelled from the spec, see
  the individual doc comments.  The pool is a `List Tx` in iterator
  (priority-descending) order.
-/

/-- Bid metadata extracted by the auction factory (`mempool.AuctionBidInfo`):
the bid amount the pool orders by and the ordered raw bundled-transaction
payloads.  Fields of the Go struct not read by `blockbuster/tob_lane.go`
(bidder, timeout) are omitted. -/
structure BidInfo where
  bidAmount : Int
  transactions : List (List Nat)
deriving DecidableEq

/-- The external collaborators of the TOB lane, bundled: transaction codec,
hashing, the auction factory, the ante handler (validation hook, `none` when
not configured) and the pool's priority function. -/
structure AuctionEnv (Tx Ctx : Type) where
  txEncoder : Tx → Option (List Nat)
  txDecoder : List Nat → Option Tx
  hashBytes : List Nat → String
  getAuctionBidInfo : Tx → Option BidInfo × Bool
  wrapBundleTransaction : List Nat → Option Tx
  anteHandler : Option (Ctx → Tx → Option Ctx)
  txPriority : Tx → Int

/-- The mutable state owned by a `TOBLane`: the wrapped priority mempool
(`l.index`, in iterator order) and the hash membership index (`l.txIndex`). -/
structure LaneState (Tx : Type) where
  pool : List Tx
  txIndex : Finset String

/-- A small concrete environment over `Tx := Fin 4`, `Ctx := Unit` used to
instantiate the theorems: transaction `t` encodes to `t+1` zero bytes (so all
hashes are distinct), transactions `0`, `2`, `3` are bids (`0` carries a
one-element bundle whose payload wraps to transaction `1`), and no ante
handler is configured. -/
def envA : AuctionEnv (Fin 4) Unit where
  txEncoder := fun t => some (List.replicate (t.val + 1) 0)
  txDecoder := fun bs => if h : bs.length - 1 < 4 then some ⟨bs.length - 1, h⟩ else none
  hashBytes := fun bs => toString bs.length
  getAuctionBidInfo := fun t =>
    if t = 0 then (some ⟨10, [[0, 0]]⟩, false)
    else if t = 2 then (some ⟨5, []⟩, false)
    else if t = 3 then (some ⟨20, []⟩, false)
    else (none, false)
  wrapBundleTransaction := fun bs =>
    if h : bs.length - 1 < 4 then some ⟨bs.length - 1, h⟩ else none
  anteHandler := none
  txPriority := fun t => t.val

/-- A concrete environment over `Tx := Fin 2` in which bid transaction `0`
carries a bundle whose single payload wraps to transaction `1`, itself a bid
(the nested-bid situation of claim C3); the ante handler accepts everything. -/
def envC : AuctionEnv (Fin 2) Unit where
  txEncoder := fun t => some (List.replicate (t.val + 1) 7)
  txDecoder := fun bs => if h : bs.length - 1 < 2 then some ⟨bs.length - 1, h⟩ else none
  hashBytes := fun bs => toString bs.length
  getAuctionBidInfo := fun t =>
    if t = 0 then (some ⟨100, [[9]]⟩, false) else (some ⟨1, []⟩, false)
  wrapBundleTransaction := fun bs => if bs = [9] then some 1 else none
  anteHandler := none
  txPriority := fun t => t.val

namespace TOB

variable {Tx Ctx : Type} [DecidableEq Tx]

/-- `getTxHashStr` (tob_lane.go:288-298): encode the transaction and hash the
bytes; an encoding error propagates as `none`. -/
def getTxHashStr (env : AuctionEnv Tx Ctx) (t : Tx) : Option String :=
  (env.txEncoder t).map env.hashBytes

/-- `verifyTx` (tob_lane.go:278-285): run the ante handler if configured,
otherwise succeed with the context unchanged. -/
def verifyTx (env : AuctionEnv Tx Ctx) (c : Ctx) (t : Tx) : Option Ctx :=
  match env.anteHandler with
  | some ante => ante c t
  | none => some c

/-- `prepareProposalVerifyTx` (tob_lane.go:252-263): encode the transaction,
then validate it; returns the encoded bytes together with the resulting
context state (see the module comment on context threading). -/
def prepareProposalVerifyTx (env : AuctionEnv Tx Ctx) (c : Ctx) (t : Tx) :
    Option (List Nat × Ctx) :=
  match env.txEncoder t with
  | none => none
  | some txBz =>
    match verifyTx env c t with
    | none => none
    | some c2 => some (txBz, c2)

/-- The bundled-transaction loop of `VerifyTx` (tob_lane.go:85-100): wrap each
raw payload, reject it if it is itself a bid transaction (the error result of
`GetAuctionBidInfo` is ignored here, exactly as in the Go code at line 92),
then validate it, threading the context. -/
def verifyBundleTxs (env : AuctionEnv Tx Ctx) : Ctx → List (List Nat) → Option Ctx
  | c, [] => some c
  | c, raw :: rest =>
    match env.wrapBundleTransaction raw with
    | none => none
    | some bundledTx =>
      if (env.getAuctionBidInfo bundledTx).1.isSome then none
      else
        match verifyTx env c bundledTx with
        | none => none
        | some c2 => verifyBundleTxs env c2 rest

/-- `VerifyTx` (tob_lane.go:72-103): `true` iff the whole verification
succeeds.  A `nil` bid info with a `nil` error would make the Go code
dereference a nil pointer at line 85; that (unreachable by intent) case is
modelled as failure. -/
def VerifyTx (env : AuctionEnv Tx Ctx) (c : Ctx) (bidTx : Tx) : Bool :=
  match env.getAuctionBidInfo bidTx with
  | (_, true) => false
  | (none, false) => false
  | (some bidInfo, false) =>
    match verifyTx env c bidTx with
    | none => false
    | some c2 => (verifyBundleTxs env c2 bidInfo.transactions).isSome

/-- `Match` (tob_lane.go:57-60): a transaction belongs to the lane iff bid
info extraction returns a non-nil result and no error. -/
def Match (env : AuctionEnv Tx Ctx) (t : Tx) : Bool :=
  (env.getAuctionBidInfo t).1.isSome && !(env.getAuctionBidInfo t).2

/-- `Contains` (tob_lane.go:62-70): membership via the hash index; `none`
models the hashing error. -/
def Contains (env : AuctionEnv Tx Ctx) (st : LaneState Tx) (t : Tx) : Option Bool :=
  (getTxHashStr env t).map (fun h => decide (h ∈ st.txIndex))

/-- `CountTx` (tob_lane.go:234-236): delegated to the pool. -/
def CountTx (st : LaneState Tx) : Nat :=
  st.pool.length

/-- `Remove` (tob_lane.go:238-250): hash the transaction (an error aborts),
remove it from the pool — the underlying pool removal is modelled from the
spec: `NotFoundError` is tolerated, so removal is total deletion of the
transaction's entry — and delete the hash from the membership index. -/
def Remove (env : AuctionEnv Tx Ctx) (st : LaneState Tx) (t : Tx) :
    Option (LaneState Tx) :=
  match getTxHashStr env t with
  | none => none
  | some h => some ⟨st.pool.filter (fun u => decide (u ≠ t)), st.txIndex.erase h⟩

/-- The bundled-transaction loop inside `PrepareLane` (tob_lane.go:154-176):
wrap each raw payload and validate it under the candidate's forked context,
collecting the encoded bytes in bundle order.  NOTE: unlike `VerifyTx`, this
loop performs no nested-bid check — this is the discrepancy behind claim C3. -/
def prepareBundle (env : AuctionEnv Tx Ctx) : Ctx → List (List Nat) →
    Option (List (List Nat) × Ctx)
  | c, [] => some ([], c)
  | c, rawRefTx :: rest =>
    match env.wrapBundleTransaction rawRefTx with
    | none => none
    | some refTx =>
      match prepareProposalVerifyTx env c refTx with
      | none => none
      | some (txBz, c2) =>
        match prepareBundle env c2 rest with
        | none => none
        | some (bzs, c3) => some (txBz :: bzs, c3)

/-- The per-candidate body of the selection loop after the duplicate guard
(tob_lane.go:137-191): validate the bid under the forked context, check its
encoded size against `maxTxBytes` (the Go code compares the bid size alone to
the whole `maxTxBytes`, see claim C2), extract bid info and validate the
bundle.  `some (sel, c2)` is a full success with selected bytes `sel` (bid
bytes followed by bundle bytes) and final forked context `c2`; `none` means
the candidate is marked for removal. -/
def candSelection (env : AuctionEnv Tx Ctx) (m : Int) (ctx : Ctx) (t : Tx) :
    Option (List (List Nat) × Ctx) :=
  match prepareProposalVerifyTx env ctx t with
  | none => none
  | some (bidTxBz, c1) =>
    if (bidTxBz.length : Int) ≤ m then
      match env.getAuctionBidInfo t with
      | (some bidInfo, false) =>
        match prepareBundle env c1 bidInfo.transactions with
        | none => none
        | some (sdkTxBytes, c2) => some (bidTxBz :: sdkTxBytes, c2)
      | _ => none
    else none

/-- `selectBidTxLoop` (tob_lane.go:123-199): iterate the pool snapshot in
priority order.  For each candidate: hash it (a hashing error aborts the whole
call), skip it if already selected, otherwise run the candidate body; a full
success commits the fork and stops, a failure marks the candidate for removal
and continues.  Returns the selected bytes, the resulting parent context and
the accumulated `txsToRemove`. -/
def selectBidTxLoop (env : AuctionEnv Tx Ctx) (m : Int) (keys : List String)
    (ctx : Ctx) (pool : List Tx) (txsToRemove : List Tx) :
    Except Unit (List (List Nat) × Ctx × List Tx) :=
  match pool with
  | [] => Except.ok ([], ctx, txsToRemove)
  | t :: rest =>
    match getTxHashStr env t with
    | none => Except.error ()
    | some h =>
      if h ∈ keys then
        selectBidTxLoop env m keys ctx rest txsToRemove
      else
        match candSelection env m ctx t with
        | none => selectBidTxLoop env m keys ctx rest (txsToRemove ++ [t])
        | some (sel2, c2) => Except.ok (sel2, c2, txsToRemove)

/-- The removal phase of `PrepareLane` (tob_lane.go:201-206): remove every
marked transaction; a `Remove` failure aborts the whole call. -/
def removeAll (env : AuctionEnv Tx Ctx) : List Tx → LaneState Tx →
    Except Unit (LaneState Tx)
  | [], st => Except.ok st
  | t :: rest, st =>
    match Remove env st t with
    | none => Except.error ()
    | some st2 => removeAll env rest st2

/-- `totalTxBytes` (tob_lane.go:113-116): the bytes already consumed by the
transactions selected by previous lanes.  The Go code computes this value (and
increments it at line 182) but never reads it afterwards; it has no effect on
the observable behaviour of `PrepareLane` — this dead accounting is the bug
behind claim C2. -/
def totalTxBytes (selectedTxs : List (String × List Nat)) : Int :=
  (selectedTxs.map (fun p => (p.2.length : Int))).sum

/-- `PrepareLane` (tob_lane.go:107-209): run the selection loop over the pool
with the hashes of the already-selected transactions as the duplicate guard,
then purge every marked transaction.  Returns the selected byte sequences, the
(possibly committed-to) context and the resulting lane state. -/
def PrepareLane (env : AuctionEnv Tx Ctx) (st : LaneState Tx) (ctx : Ctx)
    (maxTxBytes : Int) (selectedTxs : List (String × List Nat)) :
    Except Unit (List (List Nat) × Ctx × LaneState Tx) :=
  match selectBidTxLoop env maxTxBytes (selectedTxs.map Prod.fst) ctx st.pool [] with
  | Except.error e => Except.error e
  | Except.ok (tmpSelectedTxs, ctx2, txsToRemove) =>
    match removeAll env txsToRemove st with
    | Except.error e => Except.error e
    | Except.ok st2 => Except.ok (tmpSelectedTxs, ctx2, st2)

/-- Errors surfaced by the lane's `Insert`. -/
inductive InsertError where
  | encode
  | duplicate
  | capacity
deriving DecidableEq

/-- Modelled from the spec: priority-ordered insertion into the Priority
Mempool, whose implementation (package `mempool` of this repository) is not
among the sources here.  The pool is "ordered by `(priority, nonce)`"; a new
transaction is placed before the first strictly lower-priority entry
(insertion order breaks ties). -/
def insertByPriority (env : AuctionEnv Tx Ctx) (t : Tx) : List Tx → List Tx
  | [] => [t]
  | u :: us =>
    if env.txPriority u < env.txPriority t then t :: u :: us
    else u :: insertByPriority env t us

/-- Modelled from the spec: `Insert` of the Priority Mempool (package
`mempool`, not among the sources here) "fails with `DuplicateError` if already
present, `CapacityError` if the pool is at its configured maximum". -/
def poolInsert (env : AuctionEnv Tx Ctx) (maxTx : Nat) (pool : List Tx) (t : Tx) :
    Except InsertError (List Tx) :=
  if t ∈ pool then Except.error InsertError.duplicate
  else if maxTx ≤ pool.length then Except.error InsertError.capacity
  else Except.ok (insertByPriority env t pool)

/-- `Insert` (tob_lane.go:216-228): hash the transaction, insert it into the
pool (failures propagate before the index is touched), then record the hash in
the membership index. -/
def Insert (env : AuctionEnv Tx Ctx) (maxTx : Nat) (st : LaneState Tx) (t : Tx) :
    Except InsertError (LaneState Tx) :=
  match getTxHashStr env t with
  | none => Except.error InsertError.encode
  | some h =>
    match poolInsert env maxTx st.pool t with
    | Except.error e => Except.error e
    | Except.ok pool2 => Except.ok ⟨pool2, insert h st.txIndex⟩

/-- One mutation step of the lane as seen by callers: a failed operation
leaves the state unchanged. -/
inductive LaneOp (Tx : Type) where
  | ins (t : Tx)
  | rem (t : Tx)

/-- Apply one `Insert`/`Remove` call to the lane state. -/
def applyOp (env : AuctionEnv Tx Ctx) (maxTx : Nat) (st : LaneState Tx) :
    LaneOp Tx → LaneState Tx
  | LaneOp.ins t =>
    match Insert env maxTx st t with
    | Except.ok st2 => st2
    | Except.error _ => st
  | LaneOp.rem t => (Remove env st t).getD st

/-- The lane state reached from the freshly constructed lane
(`NewTOBLane`: empty pool, empty index) by a sequence of operations. -/
def runOps (env : AuctionEnv Tx Ctx) (maxTx : Nat) (ops : List (LaneOp Tx)) :
    LaneState Tx :=
  ops.foldl (applyOp env maxTx) ⟨[], ∅⟩

/-- The bid amount the pool orders by (0 for non-bid transactions, which the
TOB lane never stores). -/
def bidAmt (env : AuctionEnv Tx Ctx) (t : Tx) : Int :=
  match (env.getAuctionBidInfo t).1 with
  | some bi => bi.bidAmount
  | none => 0

/-- A pool entry that the selection loop, on reaching it, would select: its
hash is computable and not already selected, and the candidate body fully
succeeds. -/
def eligibleB (env : AuctionEnv Tx Ctx) (m : Int) (keys : List String)
    (ctx : Ctx) (t : Tx) : Bool :=
  match getTxHashStr env t with
  | none => false
  | some h => if h ∈ keys then false else (candSelection env m ctx t).isSome

/-- A pool entry that the selection loop, on reaching it, would mark for
removal: hash computable, not already selected, candidate body fails. -/
def markedB (env : AuctionEnv Tx Ctx) (m : Int) (keys : List String)
    (ctx : Ctx) (t : Tx) : Bool :=
  match getTxHashStr env t with
  | none => false
  | some h => if h ∈ keys then false else (candSelection env m ctx t).isNone

/-- Total byte length of a selected byte-sequence list. -/
def selectedBytesLen (sel : List (List Nat)) : Nat :=
  (sel.map List.length).sum

/-- `Except` success as a `Bool`. -/
def exceptOk {ε α : Type _} : Except ε α → Bool
  | Except.ok _ => true
  | Except.error _ => false

/-- Modelled from the spec: `ProcessLane` is a stub in the sources
(tob_lane.go:211-214, `panic("not implemented")`); spec §4.2 gives its
intended contract, followed here literally: "decode the leading transaction,
confirm it matches this lane and is a valid bid with a valid bundle, advance
past the bid and its bundle, then delegate the remainder to `next`.  If the
leading transaction does not match this lane, delegate the entire sequence
unchanged to `next`."  Per spec §7, any failure during verification is fatal
to the block. -/
def ProcessLane (env : AuctionEnv Tx Ctx) (ctx : Ctx) (txs : List (List Nat))
    (next : Ctx → List (List Nat) → Except Unit Ctx) : Except Unit Ctx :=
  match txs with
  | [] => next ctx []
  | bz :: rest =>
    match env.txDecoder bz with
    | none => Except.error ()
    | some tx =>
      if Match env tx then
        if VerifyTx env ctx tx then
          next ctx (rest.drop (match (env.getAuctionBidInfo tx).1 with
            | some bi => bi.transactions.length
            | none => 0))
        else Except.error ()
      else next ctx txs

/-! ### Elimination lemmas for the selection pieces -/

lemma prepareProposalVerifyTx_some_elim {env : AuctionEnv Tx Ctx} {c c2 : Ctx}
    {t : Tx} {bz : List Nat}
    (h : prepareProposalVerifyTx env c t = some (bz, c2)) :
    env.txEncoder t = some bz ∧ verifyTx env c t = some c2 := by
  unfold prepareProposalVerifyTx at h
  cases he : env.txEncoder t with
  | none => simp [he] at h
  | some txBz =>
    simp only [he] at h
    cases hv : verifyTx env c t with
    | none => simp [hv] at h
    | some c3 =>
      simp only [hv, Option.some.injEq, Prod.mk.injEq] at h
      exact ⟨by rw [h.1], by rw [h.2]⟩

lemma candSelection_some_elim {env : AuctionEnv Tx Ctx} {m : Int} {ctx C : Ctx}
    {t : Tx} {S : List (List Nat)}
    (h : candSelection env m ctx t = some (S, C)) :
    ∃ bz c1 bi bzs, prepareProposalVerifyTx env ctx t = some (bz, c1) ∧
      (bz.length : Int) ≤ m ∧
      env.getAuctionBidInfo t = (some bi, false) ∧
      prepareBundle env c1 bi.transactions = some (bzs, C) ∧
      S = bz :: bzs := by
  unfold candSelection at h
  cases hp : prepareProposalVerifyTx env ctx t with
  | none => simp [hp] at h
  | some p =>
    obtain ⟨bz, c1⟩ := p
    simp only [hp] at h
    by_cases hle : (bz.length : Int) ≤ m
    · rw [if_pos hle] at h
      cases hg : env.getAuctionBidInfo t with
      | mk fst snd =>
        cases fst with
        | none => rw [hg] at h; simp at h
        | some bi =>
          cases snd with
          | true => rw [hg] at h; simp at h
          | false =>
            rw [hg] at h
            cases hb : prepareBundle env c1 bi.transactions with
            | none => simp [hb] at h
            | some q =>
              obtain ⟨bzs, c3⟩ := q
              simp only [hb, Option.some.injEq, Prod.mk.injEq] at h
              exact ⟨bz, c1, bi, bzs, rfl, hle, rfl, by rw [← h.2]; exact hb, h.1.symm⟩
    · rw [if_neg hle] at h
      simp at h

lemma prepareBundle_spec (env : AuctionEnv Tx Ctx) :
    ∀ (raws : List (List Nat)) (c c2 : Ctx) (bzs : List (List Nat)),
    prepareBundle env c raws = some (bzs, c2) →
    bzs.length = raws.length ∧
    ∀ (i : Nat) (raw : List Nat), raws[i]? = some raw →
      ∃ rt bz2, env.wrapBundleTransaction raw = some rt ∧
        env.txEncoder rt = some bz2 ∧ bzs[i]? = some bz2 := by
  intro raws
  induction raws with
  | nil =>
    intro c c2 bzs h
    simp only [prepareBundle, Option.some.injEq, Prod.mk.injEq] at h
    refine ⟨by rw [← h.1], ?_⟩
    intro i raw hraw
    simp at hraw
  | cons raw rest ih =>
    intro c c2 bzs h
    simp only [prepareBundle] at h
    cases hw : env.wrapBundleTransaction raw with
    | none => simp [hw] at h
    | some refTx =>
      simp only [hw] at h
      cases hp : prepareProposalVerifyTx env c refTx with
      | none => simp [hp] at h
      | some p =>
        obtain ⟨txBz, cmid⟩ := p
        simp only [hp] at h
        cases hr : prepareBundle env cmid rest with
        | none => simp [hr] at h
        | some q =>
          obtain ⟨bzs2, c3⟩ := q
          simp only [hr, Option.some.injEq, Prod.mk.injEq] at h
          obtain ⟨hbzs, _⟩ := h
          obtain ⟨hlen, hpt⟩ := ih cmid c3 bzs2 hr
          subst hbzs
          refine ⟨by simp [hlen], ?_⟩
          intro i r hi
          match i with
          | 0 =>
            simp only [List.getElem?_cons_zero, Option.some.injEq] at hi
            subst hi
            exact ⟨refTx, txBz, hw, (prepareProposalVerifyTx_some_elim hp).1, by simp⟩
          | i + 1 =>
            simp only [List.getElem?_cons_succ] at hi ⊢
            exact hpt i r hi

/-! ### Characterization of the selection loop -/

lemma selectBidTxLoop_ok (env : AuctionEnv Tx Ctx) (m : Int) (keys : List String)
    (ctx : Ctx) :
    ∀ (pool acc : List Tx) (sel : List (List Nat)) (c2 : Ctx) (rem : List Tx),
    selectBidTxLoop env m keys ctx pool acc = Except.ok (sel, c2, rem) →
    (sel = [] ∧ c2 = ctx ∧ rem = acc ++ pool.filter (markedB env m keys ctx) ∧
      ∀ t ∈ pool, (getTxHashStr env t).isSome ∧ eligibleB env m keys ctx t = false) ∨
    (∃ pre t post, pool = pre ++ t :: post ∧
      (∀ u ∈ pre, (getTxHashStr env u).isSome ∧ eligibleB env m keys ctx u = false) ∧
      eligibleB env m keys ctx t = true ∧
      candSelection env m ctx t = some (sel, c2) ∧
      rem = acc ++ pre.filter (markedB env m keys ctx)) := by
  intro pool
  induction pool with
  | nil =>
    intro acc sel c2 rem h
    simp only [selectBidTxLoop, Except.ok.injEq, Prod.mk.injEq] at h
    left
    refine ⟨h.1.symm, h.2.1.symm, ?_, by simp⟩
    simp [h.2.2.symm]
  | cons t rest ih =>
    intro acc sel c2 rem h
    simp only [selectBidTxLoop] at h
    cases hh : getTxHashStr env t with
    | none => rw [hh] at h; exact Except.noConfusion h
    | some hs =>
      simp only [hh] at h
      by_cases hk : hs ∈ keys
      · rw [if_pos hk] at h
        have hm : markedB env m keys ctx t = false := by
          simp [markedB, hh, hk]
        have hel : eligibleB env m keys ctx t = false := by
          simp [eligibleB, hh, hk]
        rcases ih acc sel c2 rem h with ⟨h1, h2, h3, h4⟩ |
            ⟨pre, w, post, hdec, hpre, helig, hcand, hrem⟩
        · left
          refine ⟨h1, h2, ?_, ?_⟩
          · simp [List.filter_cons, hm, h3]
          · intro u hu
            rcases List.mem_cons.mp hu with rfl | hu
            · exact ⟨by simp [hh], hel⟩
            · exact h4 u hu
        · right
          refine ⟨t :: pre, w, post, by simp [hdec], ?_, helig, hcand, ?_⟩
          · intro u hu
            rcases List.mem_cons.mp hu with rfl | hu
            · exact ⟨by simp [hh], hel⟩
            · exact hpre u hu
          · simp [List.filter_cons, hm, hrem]
      · rw [if_neg hk] at h
        cases hc : candSelection env m ctx t with
        | none =>
          simp only [hc] at h
          have hm : markedB env m keys ctx t = true := by
            simp [markedB, hh, hk, Option.isNone_iff_eq_none, hc]
          have hel : eligibleB env m keys ctx t = false := by
            simp [eligibleB, hh, hk, hc]
          rcases ih (acc ++ [t]) sel c2 rem h with ⟨h1, h2, h3, h4⟩ |
              ⟨pre, w, post, hdec, hpre, helig, hcand, hrem⟩
          · left
            refine ⟨h1, h2, ?_, ?_⟩
            · rw [h3]; simp [List.filter_cons, hm]
            · intro u hu
              rcases List.mem_cons.mp hu with rfl | hu
              · exact ⟨by simp [hh], hel⟩
              · exact h4 u hu
          · right
            refine ⟨t :: pre, w, post, by simp [hdec], ?_, helig, hcand, ?_⟩
            · intro u hu
              rcases List.mem_cons.mp hu with rfl | hu
              · exact ⟨by simp [hh], hel⟩
              · exact hpre u hu
            · rw [hrem]; simp [List.filter_cons, hm]
        | some p =>
          obtain ⟨ps, pc⟩ := p
          simp only [hc, Except.ok.injEq, Prod.mk.injEq] at h
          obtain ⟨hsel, hc2, hrem⟩ := h
          right
          refine ⟨[], t, rest, rfl, by simp, ?_, ?_, by simp [hrem.symm]⟩
          · simp [eligibleB, hh, hk, hc]
          · rw [hc, hsel, hc2]

/-- A marked transaction's hash is computable (the loop hashed it before the
duplicate guard). -/
lemma markedB_hash {env : AuctionEnv Tx Ctx} {m : Int} {keys : List String}
    {ctx : Ctx} {t : Tx} (h : markedB env m keys ctx t = true) :
    (getTxHashStr env t).isSome := by
  unfold markedB at h
  cases hh : getTxHashStr env t with
  | none => rw [hh] at h; simp at h
  | some hs => simp

/-- A marked transaction is not an already-selected one: its hash is outside
`keys`, and its candidate body fails. -/
lemma markedB_elim {env : AuctionEnv Tx Ctx} {m : Int} {keys : List String}
    {ctx : Ctx} {t : Tx} (h : markedB env m keys ctx t = true) :
    ∃ hs, getTxHashStr env t = some hs ∧ hs ∉ keys ∧
      candSelection env m ctx t = none := by
  unfold markedB at h
  split at h
  · exact absurd h (by simp)
  next hs hh =>
    split at h
    · exact absurd h (by simp)
    next hk => exact ⟨hs, hh, hk, Option.isNone_iff_eq_none.mp h⟩

/-- An eligible transaction's hash is computable and unselected, and its
candidate body succeeds. -/
lemma eligibleB_elim {env : AuctionEnv Tx Ctx} {m : Int} {keys : List String}
    {ctx : Ctx} {t : Tx} (h : eligibleB env m keys ctx t = true) :
    ∃ hs, getTxHashStr env t = some hs ∧ hs ∉ keys ∧
      (candSelection env m ctx t).isSome = true := by
  unfold eligibleB at h
  split at h
  · exact absurd h (by simp)
  next hs hh =>
    split at h
    · exact absurd h (by simp)
    next hk => exact ⟨hs, hh, hk, h⟩

/-- If every pool entry hashes successfully, the selection loop does not
abort. -/
lemma selectBidTxLoop_ok_of_hashes (env : AuctionEnv Tx Ctx) (m : Int)
    (keys : List String) (ctx : Ctx) :
    ∀ (pool acc : List Tx), (∀ t ∈ pool, (getTxHashStr env t).isSome) →
    ∃ r, selectBidTxLoop env m keys ctx pool acc = Except.ok r := by
  intro pool
  induction pool with
  | nil => intro acc _; exact ⟨([], ctx, acc), rfl⟩
  | cons t rest ih =>
    intro acc hall
    have ht : (getTxHashStr env t).isSome := hall t (by simp)
    obtain ⟨hs, hh⟩ := Option.isSome_iff_exists.mp ht
    have hrest : ∀ u ∈ rest, (getTxHashStr env u).isSome := by
      intro u hu; exact hall u (by simp [hu])
    simp only [selectBidTxLoop, hh]
    by_cases hk : hs ∈ keys
    · rw [if_pos hk]; exact ih acc hrest
    · rw [if_neg hk]
      cases hc : candSelection env m ctx t with
      | none => exact ih (acc ++ [t]) hrest
      | some p => exact ⟨(p.1, p.2, acc), rfl⟩

/-- The selection loop aborts only on a hashing failure of some pool entry. -/
lemma selectBidTxLoop_error_hash (env : AuctionEnv Tx Ctx) (m : Int)
    (keys : List String) (ctx : Ctx) :
    ∀ (pool acc : List Tx) (e : Unit),
    selectBidTxLoop env m keys ctx pool acc = Except.error e →
    ∃ t ∈ pool, getTxHashStr env t = none := by
  intro pool
  induction pool with
  | nil => intro acc e h; simp [selectBidTxLoop] at h
  | cons t rest ih =>
    intro acc e h
    simp only [selectBidTxLoop] at h
    cases hh : getTxHashStr env t with
    | none => exact ⟨t, by simp, hh⟩
    | some hs =>
      simp only [hh] at h
      by_cases hk : hs ∈ keys
      · rw [if_pos hk] at h
        obtain ⟨u, hu, hun⟩ := ih acc e h
        exact ⟨u, by simp [hu], hun⟩
      · rw [if_neg hk] at h
        cases hc : candSelection env m ctx t with
        | none =>
          simp only [hc] at h
          obtain ⟨u, hu, hun⟩ := ih (acc ++ [t]) e h
          exact ⟨u, by simp [hu], hun⟩
        | some p =>
          obtain ⟨ps, pc⟩ := p
          simp [hc] at h

/-! ### Properties of the removal phase -/

lemma removeAll_sub (env : AuctionEnv Tx Ctx) :
    ∀ (rem : List Tx) (st st2 : LaneState Tx),
    removeAll env rem st = Except.ok st2 →
    (∀ u ∈ st2.pool, u ∈ st.pool) ∧ (∀ h, h ∈ st2.txIndex → h ∈ st.txIndex) := by
  intro rem
  induction rem with
  | nil =>
    intro st st2 h
    simp only [removeAll, Except.ok.injEq] at h
    subst h
    exact ⟨fun u hu => hu, fun h hh => hh⟩
  | cons t rest ih =>
    intro st st2 h
    simp only [removeAll] at h
    cases hr : Remove env st t with
    | none => simp [hr] at h
    | some st1 =>
      simp only [hr] at h
      obtain ⟨hp, hi⟩ := ih st1 st2 h
      unfold Remove at hr
      cases hh : getTxHashStr env t with
      | none => simp [hh] at hr
      | some hs =>
        simp only [hh, Option.some.injEq] at hr
        subst hr
        constructor
        · intro u hu
          exact List.mem_of_mem_filter (hp u hu)
        · intro h2 hh2
          exact Finset.mem_of_mem_erase (hi h2 hh2)

lemma removeAll_removes (env : AuctionEnv Tx Ctx) :
    ∀ (rem : List Tx) (st st2 : LaneState Tx),
    removeAll env rem st = Except.ok st2 →
    ∀ r ∈ rem, r ∉ st2.pool ∧
      ∃ hs, getTxHashStr env r = some hs ∧ hs ∉ st2.txIndex := by
  intro rem
  induction rem with
  | nil => intro st st2 _ r hr; simp at hr
  | cons t rest ih =>
    intro st st2 h r hr
    simp only [removeAll] at h
    cases hrm : Remove env st t with
    | none => simp [hrm] at h
    | some st1 =>
      simp only [hrm] at h
      rcases List.mem_cons.mp hr with rfl | hr
      · -- the head is removed by its own `Remove` and never re-added
        unfold Remove at hrm
        cases hh : getTxHashStr env r with
        | none => simp [hh] at hrm
        | some hs =>
          simp only [hh, Option.some.injEq] at hrm
          subst hrm
          obtain ⟨hp, hi⟩ := removeAll_sub env rest _ st2 h
          constructor
          · intro hmem
            have := hp r hmem
            simp only [List.mem_filter, decide_eq_true_eq] at this
            exact this.2 rfl
          · refine ⟨hs, rfl, ?_⟩
            intro hmem
            exact (Finset.not_mem_erase hs _) (hi hs hmem)
      · exact ih st1 st2 h r hr

lemma removeAll_keep (env : AuctionEnv Tx Ctx) :
    ∀ (rem : List Tx) (st st2 : LaneState Tx),
    removeAll env rem st = Except.ok st2 →
    ∀ (u : Tx) (h2 : String), (∀ r ∈ rem, r ≠ u) →
      (∀ r ∈ rem, getTxHashStr env r ≠ some h2) →
      (u ∈ st.pool → u ∈ st2.pool) ∧ (h2 ∈ st.txIndex → h2 ∈ st2.txIndex) := by
  intro rem
  induction rem with
  | nil =>
    intro st st2 h u h2 _ _
    simp only [removeAll, Except.ok.injEq] at h
    subst h
    exact ⟨fun hu => hu, fun hh => hh⟩
  | cons t rest ih =>
    intro st st2 h u h2 hne hnh
    simp only [removeAll] at h
    cases hrm : Remove env st t with
    | none => simp [hrm] at h
    | some st1 =>
      simp only [hrm] at h
      unfold Remove at hrm
      cases hh : getTxHashStr env t with
      | none => simp [hh] at hrm
      | some hs =>
        simp only [hh, Option.some.injEq] at hrm
        subst hrm
        have hrec := ih _ st2 h u h2 (fun r hr => hne r (by simp [hr]))
          (fun r hr => hnh r (by simp [hr]))
        constructor
        · intro hu
          refine hrec.1 ?_
          simp only [List.mem_filter, decide_eq_true_eq]
          exact ⟨hu, fun heq => hne t (by simp) heq.symm⟩
        · intro hh2
          refine hrec.2 ?_
          refine Finset.mem_erase.mpr ⟨?_, hh2⟩
          intro heq
          exact hnh t (by simp) (by rw [hh, heq])

lemma removeAll_ok_of_hashes (env : AuctionEnv Tx Ctx) :
    ∀ (rem : List Tx), (∀ t ∈ rem, (getTxHashStr env t).isSome) →
    ∀ (st : LaneState Tx), ∃ st2, removeAll env rem st = Except.ok st2 := by
  intro rem
  induction rem with
  | nil => intro _ st; exact ⟨st, rfl⟩
  | cons t rest ih =>
    intro hall st
    obtain ⟨hs, hh⟩ := Option.isSome_iff_exists.mp (hall t (by simp))
    have : Remove env st t =
        some ⟨st.pool.filter (fun u => decide (u ≠ t)), st.txIndex.erase hs⟩ := by
      simp [Remove, hh]
    obtain ⟨st2, h2⟩ := ih (fun u hu => hall u (by simp [hu])) _
    exact ⟨st2, by simp only [removeAll, this]; exact h2⟩

lemma removeAll_error_hash (env : AuctionEnv Tx Ctx) :
    ∀ (rem : List Tx) (st : LaneState Tx) (e : Unit),
    removeAll env rem st = Except.error e →
    ∃ r ∈ rem, getTxHashStr env r = none := by
  intro rem
  induction rem with
  | nil => intro st e h; simp [removeAll] at h
  | cons t rest ih =>
    intro st e h
    simp only [removeAll] at h
    cases hrm : Remove env st t with
    | none =>
      unfold Remove at hrm
      cases hh : getTxHashStr env t with
      | none => exact ⟨t, by simp, hh⟩
      | some hs => simp [hh] at hrm
    | some st1 =>
      simp only [hrm] at h
      obtain ⟨r, hr, hrn⟩ := ih st1 e h
      exact ⟨r, by simp [hr], hrn⟩

/-- Decomposition of a successful `PrepareLane` into its two phases. -/
lemma PrepareLane_ok_elim {env : AuctionEnv Tx Ctx} {st : LaneState Tx}
    {ctx c2 : Ctx} {m : Int} {selectedTxs : List (String × List Nat)}
    {sel : List (List Nat)} {st2 : LaneState Tx}
    (h : PrepareLane env st ctx m selectedTxs = Except.ok (sel, c2, st2)) :
    ∃ rem, selectBidTxLoop env m (selectedTxs.map Prod.fst) ctx st.pool [] =
        Except.ok (sel, c2, rem) ∧
      removeAll env rem st = Except.ok st2 := by
  unfold PrepareLane at h
  cases hs : selectBidTxLoop env m (selectedTxs.map Prod.fst) ctx st.pool [] with
  | error e => rw [hs] at h; simp at h
  | ok r =>
    obtain ⟨sel2, c3, rem⟩ := r
    rw [hs] at h
    cases hr : removeAll env rem st with
    | error e => simp [hr] at h
    | ok st3 =>
      simp only [hr, Except.ok.injEq, Prod.mk.injEq] at h
      obtain ⟨h1, h2, h3⟩ := h
      exact ⟨rem, by rw [h1, h2], by rw [hr, h3]⟩

/-! ### Pool/index synchronization (claims C7 and C8) -/

lemma mem_insertByPriority (env : AuctionEnv Tx Ctx) (t a : Tx) :
    ∀ (l : List Tx), a ∈ insertByPriority env t l ↔ a = t ∨ a ∈ l := by
  intro l
  induction l with
  | nil => simp [insertByPriority]
  | cons u us ih =>
    simp only [insertByPriority]
    by_cases hp : env.txPriority u < env.txPriority t
    · rw [if_pos hp]
      simp [List.mem_cons, or_left_comm, or_comm]
    · rw [if_neg hp]
      simp only [List.mem_cons, ih]
      tauto

lemma length_insertByPriority (env : AuctionEnv Tx Ctx) (t : Tx) :
    ∀ (l : List Tx), (insertByPriority env t l).length = l.length + 1 := by
  intro l
  induction l with
  | nil => simp [insertByPriority]
  | cons u us ih =>
    simp only [insertByPriority]
    by_cases hp : env.txPriority u < env.txPriority t
    · rw [if_pos hp]; simp
    · rw [if_neg hp]; simp [ih]

lemma nodup_insertByPriority (env : AuctionEnv Tx Ctx) (t : Tx) :
    ∀ (l : List Tx), l.Nodup → t ∉ l → (insertByPriority env t l).Nodup := by
  intro l
  induction l with
  | nil => intro _ _; simp [insertByPriority]
  | cons u us ih =>
    intro hnd hni
    simp only [insertByPriority]
    obtain ⟨hu, hus⟩ := List.nodup_cons.mp hnd
    by_cases hp : env.txPriority u < env.txPriority t
    · rw [if_pos hp]
      refine List.nodup_cons.mpr ⟨?_, hnd⟩
      intro hmem
      exact hni hmem
    · rw [if_neg hp]
      refine List.nodup_cons.mpr ⟨?_, ih hus (fun hm => hni (by simp [hm]))⟩
      intro hmem
      rcases (mem_insertByPriority env t u us).mp hmem with rfl | hmem
      · exact hni (by simp)
      · exact hu hmem

/-- The lane's internal consistency invariant: the pool holds no duplicate
entries and the membership index is exactly the set of pool-entry hashes. -/
def laneInv (env : AuctionEnv Tx Ctx) (st : LaneState Tx) : Prop :=
  st.pool.Nodup ∧
  (∀ h : String, h ∈ st.txIndex ↔ ∃ t ∈ st.pool, getTxHashStr env t = some h) ∧
  st.txIndex.card = st.pool.length

/-- Hash-collision freedom: distinct transactions never share a computable
hash (sha256 collision-freedom, the identity assumption of spec §3). -/
def HashInj (env : AuctionEnv Tx Ctx) : Prop :=
  ∀ t u : Tx, getTxHashStr env t = getTxHashStr env u →
    (getTxHashStr env t).isSome → t = u

lemma laneInv_applyOp (env : AuctionEnv Tx Ctx) (maxTx : Nat)
    (hinj : HashInj env) (st : LaneState Tx) (op : LaneOp Tx)
    (hin : laneInv env st) : laneInv env (applyOp env maxTx st op) := by
  obtain ⟨hnd, hiff, hcard⟩ := hin
  cases op with
  | ins t =>
    simp only [applyOp]
    cases hi : Insert env maxTx st t with
    | error e => exact ⟨hnd, hiff, hcard⟩
    | ok st2 =>
      unfold Insert at hi
      cases hh : getTxHashStr env t with
      | none => simp [hh] at hi
      | some hs =>
        simp only [hh] at hi
        cases hpi : poolInsert env maxTx st.pool t with
        | error e => simp [hpi] at hi
        | ok pool2 =>
          simp only [hpi, Except.ok.injEq] at hi
          unfold poolInsert at hpi
          by_cases hmem : t ∈ st.pool
          · simp [hmem] at hpi
          · rw [if_neg hmem] at hpi
            by_cases hcap : maxTx ≤ st.pool.length
            · simp [hcap] at hpi
            · rw [if_neg hcap] at hpi
              simp only [Except.ok.injEq] at hpi
              subst hi
              subst hpi
              have hsnot : hs ∉ st.txIndex := by
                intro hmem2
                obtain ⟨u, hu, huh⟩ := (hiff hs).mp hmem2
                have : u = t := by
                  apply hinj
                  · rw [huh, hh]
                  · simp [huh]
                exact hmem (this ▸ hu)
              refine ⟨nodup_insertByPriority env t st.pool hnd hmem, ?_, ?_⟩
              · intro h2
                simp only [Finset.mem_insert]
                constructor
                · rintro (rfl | hmem2)
                  · exact ⟨t, (mem_insertByPriority env t t st.pool).mpr (Or.inl rfl), hh⟩
                  · obtain ⟨u, hu, huh⟩ := (hiff h2).mp hmem2
                    exact ⟨u, (mem_insertByPriority env t u st.pool).mpr (Or.inr hu), huh⟩
                · rintro ⟨u, hu, huh⟩
                  rcases (mem_insertByPriority env t u st.pool).mp hu with rfl | hu
                  · left; rw [hh] at huh; exact (Option.some.inj huh).symm
                  · right; exact (hiff h2).mpr ⟨u, hu, huh⟩
              · rw [Finset.card_insert_of_not_mem hsnot,
                  length_insertByPriority, hcard]
  | rem t =>
    simp only [applyOp]
    cases hr : Remove env st t with
    | none => exact ⟨hnd, hiff, hcard⟩
    | some st2 =>
      unfold Remove at hr
      cases hh : getTxHashStr env t with
      | none => simp [hh] at hr
      | some hs =>
        simp only [hh, Option.some.injEq] at hr
        subst hr
        simp only [Option.getD_some]
        have hfilter : st.pool.filter (fun u => decide (u ≠ t)) = st.pool.erase t := by
          rw [List.Nodup.erase_eq_filter hnd]
          apply List.filter_congr
          intro u _
          by_cases hut : u = t <;> simp [hut]
        refine ⟨List.Nodup.filter _ hnd, ?_, ?_⟩
        · intro h2
          simp only [Finset.mem_erase]
          constructor
          · rintro ⟨hne, hmem2⟩
            obtain ⟨u, hu, huh⟩ := (hiff h2).mp hmem2
            refine ⟨u, ?_, huh⟩
            simp only [List.mem_filter, decide_eq_true_eq]
            refine ⟨hu, ?_⟩
            rintro rfl
            rw [hh] at huh
            exact hne (Option.some.inj huh).symm
          · rintro ⟨u, hu, huh⟩
            simp only [List.mem_filter, decide_eq_true_eq] at hu
            refine ⟨?_, (hiff h2).mpr ⟨u, hu.1, huh⟩⟩
            rintro rfl
            apply hu.2
            apply hinj
            · rw [huh, hh]
            · simp [huh]
        · by_cases hmem : t ∈ st.pool
          · have hhin : hs ∈ st.txIndex := (hiff hs).mpr ⟨t, hmem, hh⟩
            rw [Finset.card_erase_of_mem hhin, hfilter,
              List.length_erase_of_mem hmem, hcard]
          · have hhout : hs ∉ st.txIndex := by
              intro hmem2
              obtain ⟨u, hu, huh⟩ := (hiff hs).mp hmem2
              have : u = t := by
                apply hinj
                · rw [huh, hh]
                · simp [huh]
              exact hmem (this ▸ hu)
            rw [Finset.erase_eq_of_not_mem hhout, hcard]
            have hself : st.pool.filter (fun u => decide (u ≠ t)) = st.pool := by
              apply List.filter_eq_self.mpr
              intro u hu
              simp only [decide_eq_true_eq]
              rintro rfl
              exact hmem hu
            rw [hself]

lemma laneInv_runOps (env : AuctionEnv Tx Ctx) (maxTx : Nat)
    (hinj : HashInj env) (ops : List (LaneOp Tx)) :
    laneInv env (runOps env maxTx ops) := by
  have hbase : laneInv env (⟨[], ∅⟩ : LaneState Tx) := by
    refine ⟨List.nodup_nil, ?_, by simp⟩
    intro h
    simp
  rw [runOps]
  generalize hst : (⟨[], ∅⟩ : LaneState Tx) = st0
  rw [hst] at hbase
  clear hst
  induction ops generalizing st0 with
  | nil => exact hbase
  | cons op ops ih =>
    simp only [List.foldl_cons]
    exact ih _ (laneInv_applyOp env maxTx hinj st0 op hbase)

end TOB

open TOB

/-! ## Claim theorems -/

/-- Claim C1: a successful `PrepareLane` call returns either the empty
selection or exactly one bid transaction's bytes followed by that bid's
bundled transactions' bytes in bundle order (each bundle byte string being the
encoding of the wrapped payload, position by position), and — for a pool in
bid-descending iterator order, as the auction pool is — the selected bid is
the highest-bid entry among all not-already-selected pool entries that pass
full validation (bid plus every bundle element) and fit the budget check the
code applies. -/
theorem tob_prepareLane_selects_highest_valid_bid
    {Tx Ctx : Type} [DecidableEq Tx] (env : AuctionEnv Tx Ctx)
    (st : LaneState Tx) (ctx c2 : Ctx) (m : Int)
    (selectedTxs : List (String × List Nat)) (sel : List (List Nat))
    (st2 : LaneState Tx)
    (hok : PrepareLane env st ctx m selectedTxs = Except.ok (sel, c2, st2))
    (hsorted : st.pool.Pairwise (fun a b => bidAmt env b ≤ bidAmt env a)) :
    sel = [] ∨
    ∃ t ∈ st.pool, ∃ hs bi bz c1 bzs,
      getTxHashStr env t = some hs ∧ hs ∉ selectedTxs.map Prod.fst ∧
      env.getAuctionBidInfo t = (some bi, false) ∧
      prepareProposalVerifyTx env ctx t = some (bz, c1) ∧
      (bz.length : Int) ≤ m ∧
      prepareBundle env c1 bi.transactions = some (bzs, c2) ∧
      sel = bz :: bzs ∧
      bzs.length = bi.transactions.length ∧
      (∀ (i : Nat) (raw : List Nat), bi.transactions[i]? = some raw →
        ∃ rt bz2, env.wrapBundleTransaction raw = some rt ∧
          env.txEncoder rt = some bz2 ∧ bzs[i]? = some bz2) ∧
      (∀ u ∈ st.pool,
        eligibleB env m (selectedTxs.map Prod.fst) ctx u = true →
        bidAmt env u ≤ bidAmt env t) := by
  obtain ⟨rem, hscan, hrm⟩ := PrepareLane_ok_elim hok
  rcases selectBidTxLoop_ok env m (selectedTxs.map Prod.fst) ctx st.pool []
      sel c2 rem hscan with
    ⟨hsel, _, _, _⟩ | ⟨pre, t, post, hdec, hpre, helig, hcand, _⟩
  · exact Or.inl hsel
  · right
    obtain ⟨bz, c1, bi, bzs, hppvt, hle, hbi, hpb, hselval⟩ :=
      candSelection_some_elim hcand
    obtain ⟨hs2, hhash, hkeys, _⟩ := eligibleB_elim helig
    obtain ⟨hlen, hpt⟩ := prepareBundle_spec env bi.transactions c1 c2 bzs hpb
    refine ⟨t, by rw [hdec]; simp, hs2, bi, bz, c1, bzs, hhash, hkeys, hbi,
      hppvt, hle, hpb, hselval, hlen, hpt, ?_⟩
    intro u hu huel
    rw [hdec] at hu hsorted
    obtain ⟨hp1, hp2, hp12⟩ := List.pairwise_append.mp hsorted
    rcases List.mem_append.mp hu with hu | hu
    · exact absurd huel (by simp [(hpre u hu).2])
    · rcases List.mem_cons.mp hu with rfl | hu
      · exact le_refl _
      · exact (List.pairwise_cons.mp hp2).1 u hu

/-- Witness for claim C1: pool `[0, 2]` of `envA` (bid amounts 10 and 5),
budget 100, nothing previously selected; transaction 0 wins with its bundle
`[[0, 0]]`. -/
theorem tob_prepareLane_selects_highest_valid_bid_witness :
    (PrepareLane envA ⟨[0, 2], ∅⟩ () 100 [] =
      Except.ok ([[0], [0, 0]], (), (⟨[0, 2], ∅⟩ : LaneState (Fin 4)))) ∧
    (([0, 2] : List (Fin 4)).Pairwise (fun a b => bidAmt envA b ≤ bidAmt envA a)) ∧
    (([[0], [0, 0]] : List (List Nat)) = [] ∨
     ∃ t ∈ ([0, 2] : List (Fin 4)), ∃ hs bi bz c1 bzs,
       getTxHashStr envA t = some hs ∧ hs ∉ ([] : List (String × List Nat)).map Prod.fst ∧
       envA.getAuctionBidInfo t = (some bi, false) ∧
       prepareProposalVerifyTx envA () t = some (bz, c1) ∧
       (bz.length : Int) ≤ 100 ∧
       prepareBundle envA c1 bi.transactions = some (bzs, ()) ∧
       ([[0], [0, 0]] : List (List Nat)) = bz :: bzs ∧
       bzs.length = bi.transactions.length ∧
       (∀ (i : Nat) (raw : List Nat), bi.transactions[i]? = some raw →
         ∃ rt bz2, envA.wrapBundleTransaction raw = some rt ∧
           envA.txEncoder rt = some bz2 ∧ bzs[i]? = some bz2) ∧
       (∀ u ∈ ([0, 2] : List (Fin 4)),
         eligibleB envA 100 (([] : List (String × List Nat)).map Prod.fst) () u = true →
         bidAmt envA u ≤ bidAmt envA t)) :=
  ⟨rfl, by decide,
    tob_prepareLane_selects_highest_valid_bid envA ⟨[0, 2], ∅⟩ () () 100 []
      [[0], [0, 0]] ⟨[0, 2], ∅⟩ rfl (by decide)⟩

/-- Claim C4: every candidate is validated only under a fork of the execution
context; the context returned by a successful `PrepareLane` is the caller's
context unchanged when no candidate fully succeeds, and otherwise it is
exactly the (single) winning candidate's committed fork — so failed, invalid
or oversized candidates never leak state into the real context. -/
theorem tob_prepareLane_commits_fork_once
    {Tx Ctx : Type} [DecidableEq Tx] (env : AuctionEnv Tx Ctx)
    (st : LaneState Tx) (ctx c2 : Ctx) (m : Int)
    (selectedTxs : List (String × List Nat)) (sel : List (List Nat))
    (st2 : LaneState Tx)
    (hok : PrepareLane env st ctx m selectedTxs = Except.ok (sel, c2, st2)) :
    (sel = [] ∧ c2 = ctx) ∨
    ∃ t ∈ st.pool, ∃ bz c1 bi bzs,
      prepareProposalVerifyTx env ctx t = some (bz, c1) ∧
      env.getAuctionBidInfo t = (some bi, false) ∧
      prepareBundle env c1 bi.transactions = some (bzs, c2) ∧
      sel = bz :: bzs := by
  obtain ⟨rem, hscan, _⟩ := PrepareLane_ok_elim hok
  rcases selectBidTxLoop_ok env m (selectedTxs.map Prod.fst) ctx st.pool []
      sel c2 rem hscan with
    ⟨hsel, hctx, _, _⟩ | ⟨pre, t, post, hdec, _, _, hcand, _⟩
  · exact Or.inl ⟨hsel, hctx⟩
  · right
    obtain ⟨bz, c1, bi, bzs, hppvt, _, hbi, hpb, hselval⟩ :=
      candSelection_some_elim hcand
    exact ⟨t, by rw [hdec]; simp, bz, c1, bi, bzs, hppvt, hbi, hpb, hselval⟩

/-- Witness for claim C4 at the same concrete winning input as claim C1's
witness, with pool `[1, 2]` so that a failing candidate (transaction 1, not a
bid) precedes the winner. -/
theorem tob_prepareLane_commits_fork_once_witness :
    (PrepareLane envA ⟨[1, 2], {"2", "3"}⟩ () 100 [] =
      Except.ok ([[0, 0, 0]], (), (⟨[2], {"3"}⟩ : LaneState (Fin 4)))) ∧
    ((([[0, 0, 0]] : List (List Nat)) = [] ∧ () = ()) ∨
     ∃ t ∈ ([1, 2] : List (Fin 4)), ∃ bz c1 bi bzs,
       prepareProposalVerifyTx envA () t = some (bz, c1) ∧
       envA.getAuctionBidInfo t = (some bi, false) ∧
       prepareBundle envA c1 bi.transactions = some (bzs, ()) ∧
       ([[0, 0, 0]] : List (List Nat)) = bz :: bzs) :=
  ⟨rfl,
    tob_prepareLane_commits_fork_once envA ⟨[1, 2], {"2", "3"}⟩ () () 100 []
      [[0, 0, 0]] ⟨[2], {"3"}⟩ rfl⟩

/-- Claim C5: after a successful `PrepareLane`, every candidate marked during
the scan (failed validation, malformed/invalid bundle, or oversized) is absent
from both the pool and the membership index (`Contains` returns `false`); and
in particular every oversized candidate reached by a winnerless scan is marked
— discarded outright, not merely skipped. -/
theorem tob_prepareLane_purges_marked
    {Tx Ctx : Type} [DecidableEq Tx] (env : AuctionEnv Tx Ctx)
    (st : LaneState Tx) (ctx c2 : Ctx) (m : Int)
    (selectedTxs : List (String × List Nat)) (sel : List (List Nat))
    (rem : List Tx) (st2 : LaneState Tx)
    (hscan : selectBidTxLoop env m (selectedTxs.map Prod.fst) ctx st.pool [] =
      Except.ok (sel, c2, rem))
    (hrm : removeAll env rem st = Except.ok st2) :
    PrepareLane env st ctx m selectedTxs = Except.ok (sel, c2, st2) ∧
    (∀ t ∈ rem, t ∉ st2.pool ∧ Contains env st2 t = some false) ∧
    (sel = [] → ∀ t ∈ st.pool, ∀ hs bz c1,
      getTxHashStr env t = some hs → hs ∉ selectedTxs.map Prod.fst →
      prepareProposalVerifyTx env ctx t = some (bz, c1) →
      m < (bz.length : Int) → t ∈ rem) := by
  refine ⟨by simp [PrepareLane, hscan, hrm], ?_, ?_⟩
  · intro t ht
    obtain ⟨hnp, hs, hhash, hni⟩ := removeAll_removes env rem st st2 hrm t ht
    refine ⟨hnp, ?_⟩
    unfold Contains
    rw [hhash]
    simp [hni]
  · intro hsel t ht hs bz c1 hhash hkeys hppvt hlt
    rcases selectBidTxLoop_ok env m (selectedTxs.map Prod.fst) ctx st.pool []
        sel c2 rem hscan with
      ⟨_, _, hrem, _⟩ | ⟨pre, w, post, _, _, _, hcand, _⟩
    · have hnone : candSelection env m ctx t = none := by
        simp [candSelection, hppvt, not_le.mpr hlt]
      have hmk : markedB env m (selectedTxs.map Prod.fst) ctx t = true := by
        simp [markedB, hhash, hkeys, hnone]
      rw [hrem]
      simp only [List.nil_append]
      exact List.mem_filter.mpr ⟨ht, hmk⟩
    · obtain ⟨bz2, c12, bi, bzs, _, _, _, _, hselval⟩ :=
        candSelection_some_elim hcand
      rw [hsel] at hselval
      exact List.noConfusion hselval

/-- Witness for claim C5: pool `[1, 2]` of `envA`; transaction 1 is not a bid,
is marked, and is purged from pool and index while transaction 2 wins. -/
theorem tob_prepareLane_purges_marked_witness :
    (selectBidTxLoop envA 100 (([] : List (String × List Nat)).map Prod.fst) ()
        ([1, 2] : List (Fin 4)) [] = Except.ok ([[0, 0, 0]], (), [1])) ∧
    (removeAll envA [1] (⟨[1, 2], {"2", "3"}⟩ : LaneState (Fin 4)) =
      Except.ok (⟨[2], {"3"}⟩ : LaneState (Fin 4))) ∧
    (PrepareLane envA ⟨[1, 2], {"2", "3"}⟩ () 100 [] =
      Except.ok ([[0, 0, 0]], (), (⟨[2], {"3"}⟩ : LaneState (Fin 4))) ∧
    (∀ t ∈ ([1] : List (Fin 4)),
      t ∉ (⟨[2], {"3"}⟩ : LaneState (Fin 4)).pool ∧
      Contains envA (⟨[2], {"3"}⟩ : LaneState (Fin 4)) t = some false) ∧
    (([[0, 0, 0]] : List (List Nat)) = [] →
      ∀ t ∈ ([1, 2] : List (Fin 4)), ∀ hs bz c1,
      getTxHashStr envA t = some hs →
      hs ∉ ([] : List (String × List Nat)).map Prod.fst →
      prepareProposalVerifyTx envA () t = some (bz, c1) →
      (100 : Int) < (bz.length : Int) → t ∈ ([1] : List (Fin 4)))) :=
  ⟨rfl, rfl,
    tob_prepareLane_purges_marked envA ⟨[1, 2], {"2", "3"}⟩ () () 100 []
      [[0, 0, 0]] [1] ⟨[2], {"3"}⟩ rfl rfl⟩

/-- Claim C2 is violated by the code: `PrepareLane` checks only the bid
transaction's own encoded size against the whole `maxTxBytes`
(tob_lane.go:144), ignoring both the bundled transactions' bytes and the
bytes already consumed (`totalTxBytes`, computed at lines 113-116, is never
read).  Concretely in `envA`: with budget 2 the winning selection is 3 bytes
long; and with 4 bytes already consumed by previously selected transactions
the same 3-byte selection is returned although the remaining budget is
negative. -/
theorem tob_prepareLane_budget_violation :
    (PrepareLane envA ⟨[0], ∅⟩ () 2 [] =
      Except.ok ([[0], [0, 0]], (), (⟨[0], ∅⟩ : LaneState (Fin 4)))) ∧
    totalTxBytes [] = 0 ∧
    (selectedBytesLen [[0], [0, 0]] : Int) = 3 ∧
    ¬ ((selectedBytesLen [[0], [0, 0]] : Int) ≤ 2 - totalTxBytes []) ∧
    (PrepareLane envA ⟨[0], ∅⟩ () 2 [("z", [5, 5, 5, 5])] =
      Except.ok ([[0], [0, 0]], (), (⟨[0], ∅⟩ : LaneState (Fin 4)))) ∧
    totalTxBytes [("z", [5, 5, 5, 5])] = 4 ∧
    ¬ ((selectedBytesLen [[0], [0, 0]] : Int) ≤ 2 - totalTxBytes [("z", [5, 5, 5, 5])]) :=
  ⟨rfl, rfl, rfl, by decide, rfl, rfl, by decide⟩

/-- Claim C3 is violated by the code on the `PrepareLane` side: in `envC`,
bid transaction 0 bundles a payload that wraps to bid transaction 1.
`VerifyTx` rejects it (the nested-bid check at tob_lane.go:91-95), but
`PrepareLane`'s candidate scan performs no nested-bid check
(tob_lane.go:158-176): with an accepting ante handler the nested-bid bundle is
selected as the winner, is not marked for removal, and remains in the pool and
the membership index after the call. -/
theorem tob_nested_bid_prepare_divergence :
    VerifyTx envC () 0 = false ∧
    (PrepareLane envC ⟨[0], {"1"}⟩ () 100 [] =
      Except.ok ([[7], [7, 7]], (), (⟨[0], {"1"}⟩ : LaneState (Fin 2)))) ∧
    (0 : Fin 2) ∈ (⟨[0], {"1"}⟩ : LaneState (Fin 2)).pool ∧
    Contains envC ⟨[0], {"1"}⟩ 0 = some true ∧
    envC.getAuctionBidInfo 0 = (some ⟨100, [[9]]⟩, false) ∧
    envC.wrapBundleTransaction [9] = some 1 ∧
    (envC.getAuctionBidInfo 1).1.isSome = true :=
  ⟨rfl, rfl, by decide, rfl, rfl, rfl, rfl⟩

/-- Claim C6: `PrepareLane` fails exactly on structural failures.  If every
pool entry hashes successfully the call succeeds — per-candidate failures
(validation, malformed bid, bad bundle, oversize) are absorbed by marking and
the scan continues; conversely a failing call exhibits a pool entry whose
hashing (encoding) fails.  (In this model the underlying pool removal is
total, not-found being tolerated per the code, so hashing is the only
structural failure source.) -/
theorem tob_prepareLane_error_iff_structural
    {Tx Ctx : Type} [DecidableEq Tx] (env : AuctionEnv Tx Ctx)
    (st : LaneState Tx) (ctx : Ctx) (m : Int)
    (selectedTxs : List (String × List Nat)) :
    ((∀ t ∈ st.pool, (getTxHashStr env t).isSome) →
      exceptOk (PrepareLane env st ctx m selectedTxs) = true) ∧
    (exceptOk (PrepareLane env st ctx m selectedTxs) = false →
      ∃ t ∈ st.pool, getTxHashStr env t = none) := by
  constructor
  · intro hall
    obtain ⟨r, hscan⟩ :=
      selectBidTxLoop_ok_of_hashes env m (selectedTxs.map Prod.fst) ctx st.pool [] hall
    obtain ⟨sel, c2, rem⟩ := r
    have hremmk : ∀ t ∈ rem, (getTxHashStr env t).isSome := by
      rcases selectBidTxLoop_ok env m (selectedTxs.map Prod.fst) ctx st.pool []
          sel c2 rem hscan with
        ⟨_, _, hrem, _⟩ | ⟨_, _, _, _, _, _, _, hrem⟩ <;>
      (intro t ht
       rw [hrem] at ht
       simp only [List.nil_append] at ht
       exact markedB_hash (List.mem_filter.mp ht).2)
    obtain ⟨st2, hrm⟩ := removeAll_ok_of_hashes env rem hremmk st
    simp [PrepareLane, hscan, hrm, exceptOk]
  · intro herr
    cases hscan : selectBidTxLoop env m (selectedTxs.map Prod.fst) ctx st.pool [] with
    | error e =>
      exact selectBidTxLoop_error_hash env m (selectedTxs.map Prod.fst) ctx
        st.pool [] e hscan
    | ok r =>
      obtain ⟨sel, c2, rem⟩ := r
      cases hrm : removeAll env rem st with
      | error e =>
        obtain ⟨rr, hrr, hrrn⟩ := removeAll_error_hash env rem st e hrm
        have hsome : (getTxHashStr env rr).isSome := by
          rcases selectBidTxLoop_ok env m (selectedTxs.map Prod.fst) ctx st.pool []
              sel c2 rem hscan with
            ⟨_, _, hrem, _⟩ | ⟨_, _, _, _, _, _, _, hrem⟩ <;>
          (rw [hrem] at hrr
           simp only [List.nil_append] at hrr
           exact markedB_hash (List.mem_filter.mp hrr).2)
        rw [hrrn] at hsome
        simp at hsome
      | ok st2 =>
        have hok2 : exceptOk (PrepareLane env st ctx m selectedTxs) = true := by
          simp [PrepareLane, hscan, hrm, exceptOk]
        rw [hok2] at herr
        exact absurd herr (by simp)

/-- Witness for claim C6: in `envA` every transaction hashes, so the call on
pool `[0, 2]` succeeds. -/
theorem tob_prepareLane_error_iff_structural_witness :
    (∀ t ∈ (([0, 2] : List (Fin 4))), (getTxHashStr envA t).isSome) ∧
    exceptOk (PrepareLane envA ⟨[0, 2], ∅⟩ () 100 []) = true :=
  ⟨by decide,
    (tob_prepareLane_error_iff_structural envA ⟨[0, 2], ∅⟩ () 100 []).1 (by decide)⟩

/-- Claim C7: for every lane state reachable by `Insert`/`Remove` sequences
from the fresh lane, the membership index is exactly the set of pool-entry
hashes and its size equals `CountTx` (under hash-collision freedom); moreover
`Contains` is `true` immediately after any successful `Insert` of the same
transaction and `false` immediately after any successful `Remove`. -/
theorem tob_index_pool_sync
    {Tx Ctx : Type} [DecidableEq Tx] (env : AuctionEnv Tx Ctx) (maxTx : Nat)
    (hinj : HashInj env) (ops : List (LaneOp Tx)) :
    ((runOps env maxTx ops).pool.Nodup ∧
     (∀ h : String, h ∈ (runOps env maxTx ops).txIndex ↔
        ∃ t ∈ (runOps env maxTx ops).pool, getTxHashStr env t = some h) ∧
     (runOps env maxTx ops).txIndex.card = CountTx (runOps env maxTx ops)) ∧
    (∀ (s s2 : LaneState Tx) (t : Tx),
      Insert env maxTx s t = Except.ok s2 → Contains env s2 t = some true) ∧
    (∀ (s s2 : LaneState Tx) (t : Tx),
      Remove env s t = some s2 → Contains env s2 t = some false) := by
  refine ⟨laneInv_runOps env maxTx hinj ops, ?_, ?_⟩
  · intro s s2 t hi
    unfold TOB.Insert at hi
    cases hh : getTxHashStr env t with
    | none => simp [hh] at hi
    | some hs =>
      simp only [hh] at hi
      cases hpi : poolInsert env maxTx s.pool t with
      | error e => simp [hpi] at hi
      | ok pool2 =>
        simp only [hpi, Except.ok.injEq] at hi
        subst hi
        unfold Contains
        rw [hh]
        simp
  · intro s s2 t hr
    unfold Remove at hr
    cases hh : getTxHashStr env t with
    | none => simp [hh] at hr
    | some hs =>
      simp only [hh, Option.some.injEq] at hr
      subst hr
      unfold Contains
      rw [hh]
      simp

/-- Witness for claim C7: the operation sequence insert 0, insert 2,
remove 0 in `envA` (whose hashing is collision-free). -/
theorem tob_index_pool_sync_witness :
    HashInj envA ∧
    (((runOps envA 10 [LaneOp.ins 0, LaneOp.ins 2, LaneOp.rem 0]).pool.Nodup ∧
      (∀ h : String,
        h ∈ (runOps envA 10 [LaneOp.ins 0, LaneOp.ins 2, LaneOp.rem 0]).txIndex ↔
        ∃ t ∈ (runOps envA 10 [LaneOp.ins 0, LaneOp.ins 2, LaneOp.rem 0]).pool,
          getTxHashStr envA t = some h) ∧
      (runOps envA 10 [LaneOp.ins 0, LaneOp.ins 2, LaneOp.rem 0]).txIndex.card =
        CountTx (runOps envA 10 [LaneOp.ins 0, LaneOp.ins 2, LaneOp.rem 0])) ∧
     (∀ (s s2 : LaneState (Fin 4)) (t : Fin 4),
       Insert envA 10 s t = Except.ok s2 → Contains envA s2 t = some true) ∧
     (∀ (s s2 : LaneState (Fin 4)) (t : Fin 4),
       Remove envA s t = some s2 → Contains envA s2 t = some false)) :=
  ⟨by unfold HashInj; decide,
    tob_index_pool_sync envA 10 (by unfold HashInj; decide)
      [LaneOp.ins 0, LaneOp.ins 2, LaneOp.rem 0]⟩

/-- Claim C8: inserting a transaction already present in the lane's pool fails
with the duplicate error before the membership index is touched, and the
caller-visible state is unchanged. -/
theorem tob_insert_duplicate_rejected
    {Tx Ctx : Type} [DecidableEq Tx] (env : AuctionEnv Tx Ctx) (maxTx : Nat)
    (st : LaneState Tx) (t : Tx)
    (hmem : t ∈ st.pool) (hh : (getTxHashStr env t).isSome) :
    Insert env maxTx st t = Except.error InsertError.duplicate ∧
    applyOp env maxTx st (LaneOp.ins t) = st := by
  obtain ⟨hs, hhs⟩ := Option.isSome_iff_exists.mp hh
  have hins : Insert env maxTx st t = Except.error InsertError.duplicate := by
    unfold TOB.Insert
    rw [hhs]
    simp [poolInsert, hmem]
  exact ⟨hins, by simp [applyOp, hins]⟩

/-- Witness for claim C8: re-inserting transaction 0 into a lane that already
holds it. -/
theorem tob_insert_duplicate_rejected_witness :
    ((0 : Fin 4) ∈ (⟨[0], {"1"}⟩ : LaneState (Fin 4)).pool) ∧
    (getTxHashStr envA 0).isSome = true ∧
    (Insert envA 10 ⟨[0], {"1"}⟩ 0 = Except.error InsertError.duplicate ∧
     applyOp envA 10 ⟨[0], {"1"}⟩ (LaneOp.ins 0) = (⟨[0], {"1"}⟩ : LaneState (Fin 4))) :=
  ⟨by decide, by decide,
    tob_insert_duplicate_rejected envA 10 ⟨[0], {"1"}⟩ 0 (by decide) (by decide)⟩

/-- Claim C9 (spec-modelled, `ProcessLane` is a stub in the sources):
`ProcessLane` decodes the leading transaction; a non-matching leader delegates
the whole sequence unchanged; a matching leader is verified as a bid with its
bundle and exactly the bid-plus-bundle prefix is consumed before delegating
the remainder; any verification (or decode) failure is an error rejecting the
block. -/
theorem tob_processLane_prefix_contract
    {Tx Ctx : Type} [DecidableEq Tx] (env : AuctionEnv Tx Ctx) (ctx : Ctx)
    (bz : List Nat) (rest : List (List Nat))
    (next : Ctx → List (List Nat) → Except Unit Ctx) :
    (env.txDecoder bz = none →
      ProcessLane env ctx (bz :: rest) next = Except.error ()) ∧
    (∀ tx, env.txDecoder bz = some tx →
      (Match env tx = false →
        ProcessLane env ctx (bz :: rest) next = next ctx (bz :: rest)) ∧
      (Match env tx = true → VerifyTx env ctx tx = true →
        ProcessLane env ctx (bz :: rest) next =
          next ctx (rest.drop (match (env.getAuctionBidInfo tx).1 with
            | some bi => bi.transactions.length
            | none => 0))) ∧
      (Match env tx = true → VerifyTx env ctx tx = false →
        ProcessLane env ctx (bz :: rest) next = Except.error ())) := by
  constructor
  · intro hd
    simp [ProcessLane, hd]
  · intro tx hd
    refine ⟨?_, ?_, ?_⟩
    · intro hm
      simp [ProcessLane, hd, hm]
    · intro hm hv
      simp [ProcessLane, hd, hm, hv]
    · intro hm hv
      simp [ProcessLane, hd, hm, hv]

/-- Witness for claim C9: the byte string `[0, 0, 0]` decodes to bid
transaction 2 of `envA` (empty bundle), which verifies; the remainder
delegated to `next` is the empty tail. -/
theorem tob_processLane_prefix_contract_witness :
    (envA.txDecoder [0, 0, 0] = some 2) ∧
    Match envA (2 : Fin 4) = true ∧
    VerifyTx envA () (2 : Fin 4) = true ∧
    ProcessLane envA () ([0, 0, 0] :: []) (fun _ _ => Except.ok ()) =
      (fun (_ : Unit) (_ : List (List Nat)) => Except.ok ()) ()
        (([] : List (List Nat)).drop
          (match (envA.getAuctionBidInfo 2).1 with
            | some bi => bi.transactions.length
            | none => 0)) :=
  ⟨rfl, rfl, rfl,
    ((tob_processLane_prefix_contract envA () [0, 0, 0] []
        (fun _ _ => Except.ok ())).2 2 rfl).2.1 rfl rfl⟩

/-- Claim C10: a successful `PrepareLane` removes only explicitly marked
candidates: every pool entry skipped because its hash was already among the
previously selected transactions stays in the pool and keeps its index entry,
and so does the winning bid itself (selection does not evict the winner). -/
theorem tob_prepareLane_preserves_winner_and_skipped
    {Tx Ctx : Type} [DecidableEq Tx] (env : AuctionEnv Tx Ctx)
    (st : LaneState Tx) (ctx c2 : Ctx) (m : Int)
    (selectedTxs : List (String × List Nat)) (sel : List (List Nat))
    (st2 : LaneState Tx)
    (hinj : HashInj env)
    (hok : PrepareLane env st ctx m selectedTxs = Except.ok (sel, c2, st2)) :
    (∀ u ∈ st.pool, ∀ hs, getTxHashStr env u = some hs →
      hs ∈ selectedTxs.map Prod.fst →
      u ∈ st2.pool ∧ (hs ∈ st.txIndex → hs ∈ st2.txIndex)) ∧
    (sel ≠ [] → ∃ t ∈ st.pool, ∃ hs,
      getTxHashStr env t = some hs ∧ hs ∉ selectedTxs.map Prod.fst ∧
      candSelection env m ctx t = some (sel, c2) ∧
      t ∈ st2.pool ∧ (hs ∈ st.txIndex → hs ∈ st2.txIndex)) := by
  obtain ⟨rem, hscan, hrm⟩ := PrepareLane_ok_elim hok
  have hremmk : ∀ r ∈ rem,
      markedB env m (selectedTxs.map Prod.fst) ctx r = true := by
    rcases selectBidTxLoop_ok env m (selectedTxs.map Prod.fst) ctx st.pool []
        sel c2 rem hscan with
      ⟨_, _, hrem, _⟩ | ⟨_, _, _, _, _, _, _, hrem⟩ <;>
    (intro r hr
     rw [hrem] at hr
     simp only [List.nil_append] at hr
     exact (List.mem_filter.mp hr).2)
  constructor
  · intro u hu hs hhash hkeys
    have hne : ∀ r ∈ rem, r ≠ u := by
      intro r hr heq
      obtain ⟨hsr, hhr, hkr, _⟩ := markedB_elim (hremmk r hr)
      rw [heq, hhash] at hhr
      exact hkr (Option.some.inj hhr ▸ hkeys)
    have hnh : ∀ r ∈ rem, getTxHashStr env r ≠ some hs := by
      intro r hr heq
      obtain ⟨hsr, hhr, hkr, _⟩ := markedB_elim (hremmk r hr)
      rw [heq] at hhr
      exact hkr (Option.some.inj hhr ▸ hkeys)
    obtain ⟨hp, hi⟩ := removeAll_keep env rem st st2 hrm u hs hne hnh
    exact ⟨hp hu, hi⟩
  · intro hnemp
    rcases selectBidTxLoop_ok env m (selectedTxs.map Prod.fst) ctx st.pool []
        sel c2 rem hscan with
      ⟨hsel, _, _, _⟩ | ⟨pre, w, post, hdec, _, helig, hcand, _⟩
    · exact absurd hsel hnemp
    · obtain ⟨hs, hhash, hkeys, _⟩ := eligibleB_elim helig
      have hwne : ∀ r ∈ rem, r ≠ w := by
        intro r hr heq
        obtain ⟨hsr, hhr, hkr, hcn⟩ := markedB_elim (hremmk r hr)
        rw [heq, hcand] at hcn
        exact Option.noConfusion hcn
      have hwnh : ∀ r ∈ rem, getTxHashStr env r ≠ some hs := by
        intro r hr heq
        have hrw : r = w := hinj r w (by rw [heq, hhash]) (by simp [heq])
        exact hwne r hr hrw
      obtain ⟨hp, hi⟩ := removeAll_keep env rem st st2 hrm w hs hwne hwnh
      exact ⟨w, by rw [hdec]; simp, hs, hhash, hkeys, hcand,
        hp (by rw [hdec]; simp), hi⟩

/-- Witness for claim C10: pool `[1, 2]` of `envA` with index
`{"2", "3"}` — transaction 1 is marked and purged, winner 2 stays in the pool
and keeps its index entry. -/
theorem tob_prepareLane_preserves_winner_and_skipped_witness :
    HashInj envA ∧
    (PrepareLane envA ⟨[1, 2], {"2", "3"}⟩ () 100 [] =
      Except.ok ([[0, 0, 0]], (), (⟨[2], {"3"}⟩ : LaneState (Fin 4)))) ∧
    ((∀ u ∈ (⟨[1, 2], {"2", "3"}⟩ : LaneState (Fin 4)).pool, ∀ hs,
      getTxHashStr envA u = some hs →
      hs ∈ ([] : List (String × List Nat)).map Prod.fst →
      u ∈ (⟨[2], {"3"}⟩ : LaneState (Fin 4)).pool ∧
        (hs ∈ (⟨[1, 2], {"2", "3"}⟩ : LaneState (Fin 4)).txIndex →
         hs ∈ (⟨[2], {"3"}⟩ : LaneState (Fin 4)).txIndex)) ∧
    (([[0, 0, 0]] : List (List Nat)) ≠ [] →
      ∃ t ∈ (⟨[1, 2], {"2", "3"}⟩ : LaneState (Fin 4)).pool, ∃ hs,
      getTxHashStr envA t = some hs ∧
      hs ∉ ([] : List (String × List Nat)).map Prod.fst ∧
      candSelection envA 100 () t = some ([[0, 0, 0]], ()) ∧
      t ∈ (⟨[2], {"3"}⟩ : LaneState (Fin 4)).pool ∧
        (hs ∈ (⟨[1, 2], {"2", "3"}⟩ : LaneState (Fin 4)).txIndex →
         hs ∈ (⟨[2], {"3"}⟩ : LaneState (Fin 4)).txIndex))) :=
  ⟨by unfold HashInj; decide, rfl,
    tob_prepareLane_preserves_winner_and_skipped envA ⟨[1, 2], {"2", "3"}⟩
      () () 100 [] [[0, 0, 0]] ⟨[2], {"3"}⟩ (by unfold HashInj; decide) rfl⟩
